import Mathlib

/-!
Verification of the text extraction and cleaning pipeline of `src/text_cleaner.py`.

The pipeline is embedded shallowly over `List Char` (one Lean list element per
Python `str` character; `len` becomes `List.length`).  Python floats are
modelled by `ℚ` (all ratios and thresholds in the program are small exact
fractions).  `collections.Counter` over tokens is modelled by `Multiset`,
which carries exactly the information Counter stores (token multiplicities).

The HTML parsing stage (`BeautifulSoup`, comment removal, tag stripping,
`main.get_text("\n", strip=True)`) is external plumbing that produces the
serialized text; `extract_text` below takes that serialized text as input and
models everything the source does from `_remove_boilerplate` onwards, which is
the part all claims are about.

Regular expressions are translated pattern-by-pattern into decidable string
predicates; each translation is noted next to its source pattern.  Python
`str.strip()` / `\s` are modelled with the ASCII whitespace set
`{' ', '\t', '\n', '\r', '\x0b', '\x0c'}`, and `str.lower()` / `re.IGNORECASE`
with ASCII lowercasing, adequate for the ASCII patterns of the source.
-/

/-- Python whitespace (`str.strip`, regex `\s`), ASCII fragment. -/
def isPyWsChar (c : Char) : Bool :=
  c == ' ' || c == '\t' || c == '\n' || c == '\r' || c == '\x0b' || c == '\x0c'

/-- Regex `\w`: alphanumeric or underscore (ASCII fragment). -/
def isWordChar (c : Char) : Bool := c.isAlphanum || c == '_'

/-- Character class `[A-Za-z']` used by `re.findall` for word counting. -/
def isAposAlpha (c : Char) : Bool := c.isAlpha || c == '\''

/-- Character class `[A-Za-z0-9']` used by `tokenize`. -/
def isTokenChar (c : Char) : Bool := c.isAlphanum || c == '\''

/-- Class `[a-z]` under `re.IGNORECASE`, checked after lowercasing. -/
def isAsciiLowerAlpha (c : Char) : Bool := 'a' ≤ c && c ≤ 'z'

/-- Python `str.lower()` (ASCII fragment). -/
def lowerL (l : List Char) : List Char := l.map Char.toLower

/-- Python `str.strip()`: drop whitespace from both ends. -/
def pyStrip (l : List Char) : List Char :=
  (l.dropWhile isPyWsChar).rdropWhile isPyWsChar

/-- Python `str.split("\n")`. -/
def splitNL : List Char → List (List Char)
  | [] => [[]]
  | c :: cs =>
    if c == '\n' then [] :: splitNL cs
    else
      match splitNL cs with
      | [] => [[c]]
      | l :: ls => (c :: l) :: ls

/-- Python `"\n".join(...)`. -/
def joinNL : List (List Char) → List Char
  | [] => []
  | [l] => l
  | l :: ls => l ++ '\n' :: joinNL ls

/-- Maximal runs of characters satisfying `p` (the matches of
`re.findall("[p]+", s)`), in order. -/
def runsOf (p : Char → Bool) : List Char → List (List Char)
  | [] => []
  | [c] => if p c then [[c]] else []
  | c :: d :: cs =>
    let r := runsOf p (d :: cs)
    if p c then
      if p d then
        match r with
        | run :: rs => (c :: run) :: rs
        | [] => [[c]]
      else [c] :: r
    else r

/-- Substring containment (regex `.*needle.*`). -/
def containsSub (needle : List Char) : List Char → Bool
  | [] => needle.isEmpty
  | c :: cs => needle.isPrefixOf (c :: cs) || containsSub needle cs

/-- Drop a literal prefix if present. -/
def dropPrefix? (pre l : List Char) : Option (List Char) :=
  if pre.isPrefixOf l then some (l.drop pre.length) else none

/-- Python `s.replace(a, b)` (left-to-right, non-overlapping); fuelled by the
input length, which always suffices for a nonempty `a`. -/
def replaceAllFuel (a b : List Char) : Nat → List Char → List Char
  | _, [] => []
  | 0, l => l
  | fuel + 1, c :: cs =>
    if a.isPrefixOf (c :: cs) then b ++ replaceAllFuel a b fuel (cs.drop (a.length - 1))
    else c :: replaceAllFuel a b fuel cs

/-- Python `s.replace(a, b)`; the source only calls it with nonempty `a`. -/
def replaceAll (a b l : List Char) : List Char :=
  if a.isEmpty then l else replaceAllFuel a b l.length l

/-- The `BOILERPLATE` phrase list of the source (case-sensitive, replaced in
this order). -/
def BOILERPLATE : List (List Char) :=
  [ "Board of Governors of the Federal Reserve System"
  , "Back to top"
  , "Return to text"
  , "Skip to main content"
  , "Accessibility"
  , "Contact Us"
  , "Last Update:"
  , "Home |"
  , "| Privacy"
  ].map String.data

/-- Source `_remove_boilerplate`: replace each phrase by a single space. -/
def remove_boilerplate (text : List Char) : List Char :=
  BOILERPLATE.foldl (fun acc ph => replaceAll ph [' '] acc) text

/-- After optional whitespace, the next character is a colon
(regex tail `\s*:` anchored at the current position). -/
def matchColonAfterWs (l : List Char) : Bool :=
  match l.dropWhile isPyWsChar with
  | ':' :: _ => true
  | _ => false

/-- Pattern `^\s*PRESENT\s*:.*$` on a stripped, lowercased line. -/
def pPresent (t : List Char) : Bool :=
  match dropPrefix? "present".data t with
  | some r => matchColonAfterWs r
  | none => false

/-- Pattern `^\s*ATTENDEES?\s*:.*$`. -/
def pAttendees (t : List Char) : Bool :=
  match dropPrefix? "attendee".data t with
  | some r =>
    matchColonAfterWs (match r with
      | 's' :: r2 => r2
      | _ => r)
  | none => false

/-- Pattern `^\s*ATTENDING\s*:.*$`. -/
def pAttending (t : List Char) : Bool :=
  match dropPrefix? "attending".data t with
  | some r => matchColonAfterWs r
  | none => false

/-- Pattern `^\s*Attended.*session.*$`. -/
def pAttendedSession (t : List Char) : Bool :=
  match dropPrefix? "attended".data t with
  | some r => containsSub "session".data r
  | none => false

/-- Pattern `Return to text` under `re.match` (anchored at the start). -/
def pReturnToText (t : List Char) : Bool :=
  "return to text".data.isPrefixOf t

/-- Pattern `\d+\.\s*Return to text`. -/
def pNumReturn (t : List Char) : Bool :=
  let ds := t.takeWhile Char.isDigit
  !ds.isEmpty &&
    (match t.drop ds.length with
      | '.' :: r => "return to text".data.isPrefixOf (r.dropWhile isPyWsChar)
      | _ => false)

/-- Pattern `Footnote\s*\d+`. -/
def pFootnote (t : List Char) : Bool :=
  match dropPrefix? "footnote".data t with
  | some r =>
    (match r.dropWhile isPyWsChar with
      | c :: _ => c.isDigit
      | [] => false)
  | none => false

/-- Pattern `^\s*\d+\s*$` on a stripped line: all digits, nonempty. -/
def pBareNumber (t : List Char) : Bool :=
  !t.isEmpty && t.all Char.isDigit

/-- Pattern `^\s*[a-z]\.\s*$` on a stripped line. -/
def pLetterDot (t : List Char) : Bool :=
  match t with
  | [c, '.'] => isAsciiLowerAlpha c
  | _ => false

/-- Pattern `^\s*\(\d+\)\s*$` on a stripped line. -/
def pParenNumber (t : List Char) : Bool :=
  match t with
  | '(' :: r =>
    let ds := r.takeWhile Char.isDigit
    !ds.isEmpty && r.drop ds.length == [')']
  | _ => false

/-- Pattern `^\s*\([a-z]\)\s*$` on a stripped line. -/
def pParenLetter (t : List Char) : Bool :=
  match t with
  | ['(', c, ')'] => isAsciiLowerAlpha c
  | _ => false

/-- Pattern `^[\s\-_=]+$`: separator-only line. -/
def pSeparator (t : List Char) : Bool :=
  !t.isEmpty && t.all fun c => isPyWsChar c || c == '-' || c == '_' || c == '='

/-- Pattern `^.*https?://.*$`. -/
def pUrl (t : List Char) : Bool :=
  containsSub "http://".data t || containsSub "https://".data t

/-- Pattern `^.*\bPDF\b.*$`: some maximal `\w`-run equals "pdf". -/
def pPdfWord (t : List Char) : Bool :=
  (runsOf isWordChar t).any (· == "pdf".data)

/-- A word boundary sits before this position (start handled by caller). -/
def wordBoundaryAt : List Char → Bool
  | [] => true
  | c :: _ => !isWordChar c

/-- Pattern `^.*\.pdf\b.*$`: a literal ".pdf" whose following position is a
word boundary. -/
def pDotPdf : List Char → Bool
  | [] => false
  | c :: cs =>
    (c == '.' && "pdf".data.isPrefixOf cs && wordBoundaryAt (cs.drop 3)) || pDotPdf cs

/-- Source `REMOVE_LINE_PATTERNS`, each tried via
`re.match(pattern, line.strip(), re.IGNORECASE)`. -/
def matchesRemovePattern (line : List Char) : Bool :=
  let t := lowerL (pyStrip line)
  pPresent t || pAttendees t || pAttending t || pAttendedSession t ||
    pReturnToText t || pNumReturn t || pFootnote t || pBareNumber t ||
    pLetterDot t || pParenNumber t || pParenLetter t || pSeparator t ||
    pUrl t || pPdfWord t || pDotPdf t

/-- Source `_remove_line_artifacts`: drop every line matching one of the
removal patterns, keeping the rest verbatim. -/
def remove_line_artifacts (text : List Char) : List Char :=
  joinNL ((splitNL text).filter fun ln => !matchesRemovePattern ln)

/-- The literal verb alternatives of the source `VERB_PATTERN`. -/
def verbLiterals : List (List Char) :=
  [ "is", "are", "was", "were", "be", "been", "being", "has", "have", "had"
  , "will", "would", "should", "can", "could", "may", "might", "does", "do", "did"
  ].map String.data

/-- Does a maximal `\w`-token match one alternative of `VERB_PATTERN`
(`\b(is|...|did|\w+ing|\w+ed)\b`)?  Since both `\b`s must fall on token
boundaries, the whole token has to match the alternative. -/
def isVerbToken (tok : List Char) : Bool :=
  verbLiterals.contains tok ||
    ("ing".data.isSuffixOf tok && tok.length ≥ 4) ||
    ("ed".data.isSuffixOf tok && tok.length ≥ 3)

/-- Source `VERB_PATTERN.search(line)` (case-insensitive). -/
def hasVerb (line : List Char) : Bool :=
  (runsOf isWordChar (lowerL line)).any isVerbToken

/-- Source `NARRATIVE_KEYWORDS` (a Python set; membership test only, so the
order is irrelevant and duplicate entries collapse). -/
def NARRATIVE_KEYWORDS : List (List Char) :=
  [ "inflation", "policy", "rate", "funds", "market", "economic", "growth", "financial"
  , "committee", "participants", "staff", "balance", "sheet", "reserve", "credit", "risk"
  , "employment", "output", "gdp", "prices", "labor", "wage", "supply", "demand"
  , "investment", "spending", "unemployment", "ioer", "iorb", "rrp", "soma"
  , "balance sheet", "runoff", "transmission", "forecast", "projection", "estimate"
  , "assessment", "decision", "rationale", "tools"
  , "mbs", "mortgage-backed", "mortgage backed", "treasury", "treasuries"
  , "qe", "qt", "quantitative easing", "quantitative tightening"
  , "repo", "reverse repo", "repurchase"
  , "discount window", "primary credit", "secondary credit"
  , "standing repo facility", "srf"
  , "facility", "facilities"
  , "swap", "swap lines", "fima"
  , "liquidity"
  , "open market", "desk", "soma operations"
  ].map String.data

/-- Source `_line_is_narrative`. -/
def line_is_narrative (line : List Char) : Bool :=
  let low := lowerL line
  NARRATIVE_KEYWORDS.any (fun k => containsSub k low) ||
    (hasVerb line && (runsOf isAposAlpha line).length ≥ 6)

/-- Source `_line_is_garbage`. -/
def line_is_garbage (line : List Char) : Bool :=
  matchesRemovePattern line ||
    ((runsOf isAposAlpha line).length ≥ 6 &&
      List.count ',' line ≥ 3 && !hasVerb line)

/-- The per-line keep decision of the strict-mode loop in `extract_text`
(`if narrative: keep; elif not garbage: keep`). -/
def keptLines (ls : List (List Char)) : List (List Char) :=
  ls.filter fun ln => if line_is_narrative ln then true else !line_is_garbage ln

/-- Collapse runs of horizontal whitespace to one space
(`re.sub("[ \t]+", " ", text)`). -/
def squeezeHWS : List Char → List Char
  | [] => []
  | [c] => if c == ' ' || c == '\t' then [' '] else [c]
  | c :: d :: cs =>
    if c == ' ' || c == '\t' then
      if d == ' ' || d == '\t' then squeezeHWS (d :: cs)
      else ' ' :: squeezeHWS (d :: cs)
    else c :: squeezeHWS (d :: cs)

/-- Collapse three or more consecutive newlines to exactly two
(`re.sub("\n{3,}", "\n\n", text)`). -/
def squeezeNL : List Char → List Char
  | a :: b :: c :: cs =>
    if a == '\n' && b == '\n' && c == '\n' then squeezeNL (b :: c :: cs)
    else a :: squeezeNL (b :: c :: cs)
  | l => l

/-- The final normalization of `extract_text` (lines 204-206 of the source):
horizontal-whitespace collapse, newline collapse, then `strip()`. -/
def normalizeWs (t : List Char) : List Char := pyStrip (squeezeNL (squeezeHWS t))

/-- Source `DEFAULT_REMOVAL_GUARD = 0.4`. -/
def DEFAULT_REMOVAL_GUARD : ℚ := 2/5

/-- The removal ratio `1.0 - len(cleaned) / base_chars` of the guard. -/
def ratioRemoved (base_chars cleaned_chars : ℕ) : ℚ :=
  1 - (cleaned_chars : ℚ) / (base_chars : ℚ)

/-- The guard decision of `extract_text`: revert to the baseline when the
baseline is nonempty and the removal ratio strictly exceeds the guard
(`if guard is not None and base_chars: ... if removed_ratio > guard`; after
the `None` default substitution the guard is never `None`). -/
def guardedResult (baseline cleaned : List Char) (guard : ℚ) : List Char :=
  if baseline.length ≠ 0 ∧ ratioRemoved baseline.length cleaned.length > guard
  then baseline else cleaned

/-- The strict (`is_fomc`) branch of `extract_text`, acting on the
boilerplate-stripped text: the source's locals `baseline` (light cleanup),
`base_lines`, `kept_lines` and `cleaned` are inlined (all are pure). -/
def strictClean (t : List Char) (removal_guard : Option ℚ) : List Char :=
  guardedResult (remove_line_artifacts t)
    (joinNL (keptLines (splitNL (remove_line_artifacts t))))
    (removal_guard.getD DEFAULT_REMOVAL_GUARD)

/-- Source `extract_text`, from the serialized text of the selected content
node onward (the `BeautifulSoup` stage that produces this text is external
plumbing, see the header).  The final normalization applies to whichever
branch produced the text, as in the source. -/
def extract_text (text : List Char) : Bool → Option ℚ → List Char
  | true, removal_guard => normalizeWs (strictClean (remove_boilerplate text) removal_guard)
  | false, _ => normalizeWs (remove_line_artifacts (remove_boilerplate text))

/-- The baseline (light-cleaned) text a strict-mode run of `extract_text`
computes for a document with serialized text `text`. -/
def baselineOf (text : List Char) : List Char :=
  remove_line_artifacts (remove_boilerplate text)

/-- The aggressively filtered text (before the guard decision and the final
normalization) of a strict-mode run. -/
def filteredOf (text : List Char) : List Char :=
  joinNL (keptLines (splitNL (baselineOf text)))

/-- Source `tokenize`: lowercase `[A-Za-z0-9']+` runs. -/
def tokenize (text : List Char) : List (List Char) :=
  (runsOf isTokenChar text).map lowerL

/-- Source `statistics.median` on rationals: middle element of the sorted
list, or the mean of the two middle elements (the source only calls it on
nonempty lists; the `getD` default is never used there). -/
def pyMedian (l : List ℚ) : ℚ :=
  let s := List.insertionSort (· ≤ ·) l
  let n := l.length
  if n % 2 = 1 then s.getD (n / 2) 0
  else (s.getD (n / 2 - 1) 0 + s.getD (n / 2) 0) / 2

/-- Source `recommend_guard_from_profile` (the printed mean/90th-percentile
diagnostics do not affect the returned value and are omitted). -/
def recommend_guard_from_profile (ratios : List ℚ) (d : ℚ := DEFAULT_REMOVAL_GUARD) : ℚ :=
  if ratios = [] then d
  else max (3/10) (min (6/10) (pyMedian ratios + 1/10))

/-- Kinds of documents the tree processor may encounter, by how their two
reads behave: a file whose UTF-8 read succeeds, one where only the Latin-1
fallback read succeeds, and one where both reads raise (for example an OS
error on open; with `errors="ignore"` decode errors themselves never raise).
The filesystem is deterministic: both reads of the same file agree. -/
inductive ReadOutcome where
  | ok (content : List Char)
  | utf8Fails (content : List Char)
  | bothFail
deriving DecidableEq

/-- The `try: read_text(utf-8) except: read_text(latin-1)` preamble shared by
`process_file` and the `process_tree` loop: a failing first read is retried,
a failure of the retry propagates as an exception. -/
def readFile : ReadOutcome → Except Unit (List Char)
  | .ok c => .ok c
  | .utf8Fails c => .ok c
  | .bothFail => .error ()

/-- Source `process_file` (read, extract, tokenize, write, stats).  The write
to the output path is not modelled (it carries no information used later);
the returned triple is `(len(cleaned), len(tokens), Counter(tokens))`, with
`Counter` as a `Multiset`.  `None` (the empty-output soft skip) is `none`. -/
def process_file (r : ReadOutcome) (is_fomc : Bool) (g : Option ℚ) :
    Except Unit (Option (ℕ × ℕ × Multiset (List Char))) :=
  match readFile r with
  | .error e => .error e
  | .ok html =>
    if extract_text html is_fomc g = [] then .ok none
    else .ok (some ((extract_text html is_fomc g).length,
      (tokenize (extract_text html is_fomc g)).length,
      (tokenize (extract_text html is_fomc g) : Multiset (List Char))))

/-- The removal-ratio entries one file contributes in `process_tree`
(`if baseline: ratio = 1 - len(cleaned)/len(baseline); append clamp`). -/
def ratioEntries (html : List Char) (is_fomc : Bool) (g : Option ℚ) : List ℚ :=
  let baseline := extract_text html false none
  let cleaned := extract_text html is_fomc g
  if baseline.length ≠ 0
  then [max 0 (min 1 (ratioRemoved baseline.length cleaned.length))]
  else []

/-- The aggregate result of `process_tree`:
`(total_files, total_chars, total_tokens, counter, removal_ratios)`. -/
structure TreeStats where
  files : ℕ
  chars : ℕ
  tokens : ℕ
  counter : Multiset (List Char)
  ratios : List ℚ
deriving DecidableEq

/-- Source `process_tree` over the discovered HTML files (the `rglob`
discovery itself is filesystem plumbing; the optional `removed_collector`
is diagnostic-only and not modelled).  The loop accumulates per-file stats;
an uncaught exception from a file's reads aborts the whole walk, which the
`Except` propagation mirrors. -/
def process_tree (files : List ReadOutcome) (is_fomc : Bool) (g : Option ℚ) :
    Except Unit TreeStats :=
  match files with
  | [] => .ok ⟨0, 0, 0, 0, []⟩
  | f :: rest =>
    match readFile f with
    | .error e => .error e
    | .ok html =>
      match process_file f is_fomc g with
      | .error e => .error e
      | .ok none =>
        (process_tree rest is_fomc g).map fun s =>
          ⟨s.files, s.chars, s.tokens, s.counter, ratioEntries html is_fomc g ++ s.ratios⟩
      | .ok (some (c, t, m)) =>
        (process_tree rest is_fomc g).map fun s =>
          ⟨s.files + 1, s.chars + c, s.tokens + t, m + s.counter,
            ratioEntries html is_fomc g ++ s.ratios⟩

/-- No tab survives and no two adjacent horizontal-whitespace characters
remain: the invariant established by `squeezeHWS`. -/
def noHWSRun : List Char → Bool
  | [] => true
  | [c] => !(c == '\t')
  | c :: d :: cs =>
    !(c == '\t') && !((c == ' ' || c == '\t') && (d == ' ' || d == '\t')) && noHWSRun (d :: cs)

/-- No three consecutive newlines: the invariant established by `squeezeNL`. -/
def no3NL : List Char → Bool
  | a :: b :: c :: cs => !(a == '\n' && b == '\n' && c == '\n') && no3NL (b :: c :: cs)
  | _ => true

example : pPresent (lowerL (pyStrip "PRESENT: Powell, Yellen".data)) = true := by decide
example : matchesRemovePattern "  123  ".data = true := by decide
example : matchesRemovePattern "(a)".data = true := by decide
example : matchesRemovePattern "see the PDF file".data = true := by decide
example : matchesRemovePattern "a, b, c, d, e, f".data = false := by decide
example : line_is_garbage "a, b, c, d, e, f".data = true := by decide
example : line_is_narrative "a, b, c, d, e, f".data = false := by decide
example : line_is_narrative "The committee decided".data = true := by decide
example : hasVerb "we were there".data = true := by decide
example : hasVerb "alpha bravo".data = false := by decide
example : tokenize "The rate, 5.25%".data = ["the".data, "rate".data, "5".data, "25".data] := by decide
example : normalizeWs "  a \t b\n\n\n\nc ".data = "a b\n\nc".data := by decide

theorem noHWSRun_head : ∀ (c : Char) (l : List Char),
    noHWSRun (c :: l) = true → (c == '\t') = false
  | c, [], h => by simpa [noHWSRun] using h
  | c, d :: ds, h => by
    simp only [noHWSRun, Bool.and_eq_true, Bool.not_eq_true'] at h
    exact h.1.1

theorem noHWSRun_tail : ∀ (c : Char) (l : List Char),
    noHWSRun (c :: l) = true → noHWSRun l = true
  | c, [], _ => rfl
  | c, d :: ds, h => by
    simp only [noHWSRun, Bool.and_eq_true] at h
    exact h.2

theorem no3NL_tail : ∀ (c : Char) (l : List Char),
    no3NL (c :: l) = true → no3NL l = true
  | c, [], _ => rfl
  | c, [d], _ => rfl
  | c, d :: e :: ds, h => by
    simp only [no3NL, Bool.and_eq_true] at h
    exact h.2

theorem noHWSRun_append_left : ∀ (xs ys : List Char),
    noHWSRun (xs ++ ys) = true → noHWSRun xs = true
  | [], _, _ => rfl
  | [x], ys, h => by
    have hx := noHWSRun_head x ys (by simpa using h)
    simp [noHWSRun, hx]
  | x :: x2 :: xs, ys, h => by
    simp only [List.cons_append] at h
    simp only [noHWSRun, Bool.and_eq_true] at h ⊢
    refine ⟨⟨h.1.1, h.1.2⟩, ?_⟩
    exact noHWSRun_append_left (x2 :: xs) ys (by simpa using h.2)

theorem no3NL_append_left : ∀ (xs ys : List Char),
    no3NL (xs ++ ys) = true → no3NL xs = true
  | [], _, _ => rfl
  | [x], _, _ => rfl
  | [x, y], _, _ => rfl
  | x :: y :: z :: xs, ys, h => by
    simp only [List.cons_append] at h
    simp only [no3NL, Bool.and_eq_true] at h ⊢
    exact ⟨h.1, no3NL_append_left (y :: z :: xs) ys (by simpa using h.2)⟩

theorem noHWSRun_append_right : ∀ (xs ys : List Char),
    noHWSRun (xs ++ ys) = true → noHWSRun ys = true
  | [], ys, h => by simpa using h
  | x :: xs, ys, h => by
    exact noHWSRun_append_right xs ys (noHWSRun_tail x (xs ++ ys) (by simpa using h))

theorem no3NL_append_right : ∀ (xs ys : List Char),
    no3NL (xs ++ ys) = true → no3NL ys = true
  | [], ys, h => by simpa using h
  | x :: xs, ys, h => by
    exact no3NL_append_right xs ys (no3NL_tail x (xs ++ ys) (by simpa using h))

theorem noHWSRun_of_leading {Y X : List Char} (h : Y <+: X) (hX : noHWSRun X = true) :
    noHWSRun Y = true := by
  obtain ⟨t, rfl⟩ := h
  exact noHWSRun_append_left Y t hX

theorem noHWSRun_of_suffix {Y X : List Char} (h : Y <:+ X) (hX : noHWSRun X = true) :
    noHWSRun Y = true := by
  obtain ⟨t, rfl⟩ := h
  exact noHWSRun_append_right t Y hX

theorem no3NL_of_leading {Y X : List Char} (h : Y <+: X) (hX : no3NL X = true) :
    no3NL Y = true := by
  obtain ⟨t, rfl⟩ := h
  exact no3NL_append_left Y t hX

theorem no3NL_of_suffix {Y X : List Char} (h : Y <:+ X) (hX : no3NL X = true) :
    no3NL Y = true := by
  obtain ⟨t, rfl⟩ := h
  exact no3NL_append_right t Y hX

theorem squeezeHWS_head : ∀ (y : Char) (ys : List Char),
    ∃ zs, squeezeHWS (y :: ys) = (if y == ' ' || y == '\t' then ' ' else y) :: zs
  | y, [] => by
    by_cases hy : (y == ' ' || y == '\t') = true
    · exact ⟨[], by simp [squeezeHWS, hy]⟩
    · exact ⟨[], by simp [squeezeHWS, hy]⟩
  | y, w :: ws => by
    by_cases hy : (y == ' ' || y == '\t') = true
    · by_cases hw : (w == ' ' || w == '\t') = true
      · obtain ⟨zs, hz⟩ := squeezeHWS_head w ws
        rw [hw] at hz
        exact ⟨zs, by simp [squeezeHWS, hy, hw, hz]⟩
      · exact ⟨squeezeHWS (w :: ws), by simp [squeezeHWS, hy, hw]⟩
    · exact ⟨squeezeHWS (w :: ws), by simp [squeezeHWS, hy]⟩

theorem squeezeNL_head : ∀ (y : Char) (ys : List Char),
    ∃ zs, squeezeNL (y :: ys) = y :: zs
  | y, [] => ⟨[], rfl⟩
  | y, [w] => ⟨[w], rfl⟩
  | y, w :: v :: ws => by
    by_cases h : (y == '\n' && (w == '\n' && v == '\n')) = true
    · obtain ⟨zs, hz⟩ := squeezeNL_head w (v :: ws)
      simp only [Bool.and_eq_true, beq_iff_eq] at h
      refine ⟨zs, ?_⟩
      rw [show squeezeNL (y :: w :: v :: ws) = squeezeNL (w :: v :: ws) by
        simp [squeezeNL, h.1, h.2.1, h.2.2], hz, h.2.1, h.1]
    · refine ⟨squeezeNL (w :: v :: ws), ?_⟩
      simp only [Bool.and_eq_true, beq_iff_eq] at h
      by_cases h1 : y = '\n'
      · by_cases h2 : w = '\n'
        · have h3 : ¬ v = '\n' := fun hv => h ⟨h1, h2, hv⟩
          simp [squeezeNL, h1, h2, h3]
        · simp [squeezeNL, h1, h2]
      · simp [squeezeNL, h1]

theorem squeezeNL_cons_cons (b c : Char) (cs : List Char) (hc : ¬ c = '\n') :
    ∃ zs, squeezeNL (b :: c :: cs) = b :: c :: zs := by
  cases cs with
  | nil => exact ⟨[], rfl⟩
  | cons e cs2 =>
    have h : (b == '\n' && c == '\n' && e == '\n') = false := by
      simp [hc]
    obtain ⟨w, hw⟩ := squeezeNL_head c (e :: cs2)
    refine ⟨w, ?_⟩
    show (if (b == '\n' && c == '\n' && e == '\n') = true
      then squeezeNL (c :: e :: cs2) else b :: squeezeNL (c :: e :: cs2)) = b :: c :: w
    rw [h, if_neg (by simp), hw]

theorem noHWSRun_squeezeHWS : ∀ (l : List Char), noHWSRun (squeezeHWS l) = true
  | [] => rfl
  | [c] => by
    by_cases hc : (c == ' ' || c == '\t') = true
    · simp [squeezeHWS, hc, noHWSRun]
    · simp only [Bool.or_eq_true, not_or, Bool.not_eq_true] at hc
      simp [squeezeHWS, hc.1, hc.2, noHWSRun]
  | c :: d :: cs => by
    have IH := noHWSRun_squeezeHWS (d :: cs)
    obtain ⟨zs, hz⟩ := squeezeHWS_head d cs
    by_cases hc : (c == ' ' || c == '\t') = true
    · by_cases hd : (d == ' ' || d == '\t') = true
      · show noHWSRun (if (c == ' ' || c == '\t') = true then
          (if (d == ' ' || d == '\t') = true then squeezeHWS (d :: cs)
            else ' ' :: squeezeHWS (d :: cs)) else c :: squeezeHWS (d :: cs)) = true
        rw [if_pos hc, if_pos hd]
        exact IH
      · show noHWSRun (if (c == ' ' || c == '\t') = true then
          (if (d == ' ' || d == '\t') = true then squeezeHWS (d :: cs)
            else ' ' :: squeezeHWS (d :: cs)) else c :: squeezeHWS (d :: cs)) = true
        rw [if_pos hc, if_neg (by simp [hd]), hz, if_neg (by simp [hd])]
        rw [hz, if_neg (by simp [hd])] at IH
        simp only [noHWSRun, Bool.and_eq_true, Bool.not_eq_true']
        refine ⟨⟨by decide, ?_⟩, IH⟩
        simp only [Bool.and_eq_false_iff]
        right
        simpa using hd
    · show noHWSRun (if (c == ' ' || c == '\t') = true then
        (if (d == ' ' || d == '\t') = true then squeezeHWS (d :: cs)
          else ' ' :: squeezeHWS (d :: cs)) else c :: squeezeHWS (d :: cs)) = true
      rw [if_neg (by simp [hc]), hz]
      rw [hz] at IH
      simp only [noHWSRun, Bool.and_eq_true, Bool.not_eq_true']
      have hct : (c == '\t') = false := by
        simp only [Bool.or_eq_true, not_or, Bool.not_eq_true] at hc
        exact hc.2
      refine ⟨⟨hct, ?_⟩, IH⟩
      simp only [Bool.and_eq_false_iff]
      left
      simpa using hc

theorem no3NL_squeezeNL : ∀ (l : List Char), no3NL (squeezeNL l) = true
  | [] => rfl
  | [a] => rfl
  | [a, b] => rfl
  | a :: b :: c :: cs => by
    have IH := no3NL_squeezeNL (b :: c :: cs)
    by_cases h3 : (a == '\n' && b == '\n' && c == '\n') = true
    · show no3NL (if (a == '\n' && b == '\n' && c == '\n') = true
        then squeezeNL (b :: c :: cs) else a :: squeezeNL (b :: c :: cs)) = true
      rw [if_pos h3]
      exact IH
    · show no3NL (if (a == '\n' && b == '\n' && c == '\n') = true
        then squeezeNL (b :: c :: cs) else a :: squeezeNL (b :: c :: cs)) = true
      rw [if_neg (by simp [h3])]
      by_cases hab : a = '\n' ∧ b = '\n'
      · have hc : ¬ c = '\n' := by
          intro hcc
          exact h3 (by simp [hab.1, hab.2, hcc])
        obtain ⟨zs, hz⟩ := squeezeNL_cons_cons b c cs hc
        rw [hz]
        rw [hz] at IH
        simp only [no3NL, Bool.and_eq_true, Bool.not_eq_true']
        refine ⟨?_, IH⟩
        simp [hc]
      · obtain ⟨zs, hz⟩ := squeezeNL_head b (c :: cs)
        rw [hz]
        rw [hz] at IH
        cases zs with
        | nil => rfl
        | cons z zs2 =>
          simp only [no3NL, Bool.and_eq_true, Bool.not_eq_true']
          refine ⟨?_, IH⟩
          simp only [Bool.and_eq_false_iff, beq_eq_false_iff_ne, ne_eq]
          exact Or.inl (not_and_or.mp hab)

theorem noHWSRun_squeezeNL : ∀ (l : List Char),
    noHWSRun l = true → noHWSRun (squeezeNL l) = true
  | [], h => h
  | [a], h => h
  | [a, b], h => h
  | a :: b :: c :: cs, h => by
    have ht := noHWSRun_tail a (b :: c :: cs) h
    have IH := noHWSRun_squeezeNL (b :: c :: cs) ht
    by_cases h3 : (a == '\n' && b == '\n' && c == '\n') = true
    · show noHWSRun (if (a == '\n' && b == '\n' && c == '\n') = true
        then squeezeNL (b :: c :: cs) else a :: squeezeNL (b :: c :: cs)) = true
      rw [if_pos h3]
      exact IH
    · show noHWSRun (if (a == '\n' && b == '\n' && c == '\n') = true
        then squeezeNL (b :: c :: cs) else a :: squeezeNL (b :: c :: cs)) = true
      rw [if_neg (by simp [h3])]
      obtain ⟨zs, hz⟩ := squeezeNL_head b (c :: cs)
      rw [hz]
      rw [hz] at IH
      simp only [noHWSRun, Bool.and_eq_true, Bool.not_eq_true'] at h ⊢
      exact ⟨⟨h.1.1, h.1.2⟩, IH⟩

theorem squeezeHWS_fix : ∀ (l : List Char), noHWSRun l = true → squeezeHWS l = l
  | [], _ => rfl
  | [c], h => by
    simp only [noHWSRun, Bool.not_eq_true'] at h
    by_cases hc : (c == ' ') = true
    · have : c = ' ' := by simpa using hc
      simp [squeezeHWS, this]
    · show (if (c == ' ' || c == '\t') = true then [' '] else [c]) = [c]
      rw [if_neg (by simp_all)]
  | c :: d :: cs, h => by
    simp only [noHWSRun, Bool.and_eq_true, Bool.not_eq_true'] at h
    have IH := squeezeHWS_fix (d :: cs) h.2
    show (if (c == ' ' || c == '\t') = true then
      (if (d == ' ' || d == '\t') = true then squeezeHWS (d :: cs)
        else ' ' :: squeezeHWS (d :: cs)) else c :: squeezeHWS (d :: cs)) = c :: d :: cs
    by_cases hc : (c == ' ' || c == '\t') = true
    · have hcsp : c = ' ' := by
        rcases (by simpa using hc : c = ' ' ∨ c = '\t') with h1 | h1
        · exact h1
        · exfalso
          rw [h1] at h
          simp at h
      have hd : (d == ' ' || d == '\t') = false := by
        have := h.1.2
        rw [hc] at this
        simpa using this
      rw [if_pos hc, if_neg (by simp [hd]), IH, hcsp]
    · rw [if_neg hc, IH]

theorem squeezeNL_fix : ∀ (l : List Char), no3NL l = true → squeezeNL l = l
  | [], _ => rfl
  | [a], _ => rfl
  | [a, b], _ => rfl
  | a :: b :: c :: cs, h => by
    simp only [no3NL, Bool.and_eq_true, Bool.not_eq_true'] at h
    have IH := squeezeNL_fix (b :: c :: cs) h.2
    show (if (a == '\n' && b == '\n' && c == '\n') = true
      then squeezeNL (b :: c :: cs) else a :: squeezeNL (b :: c :: cs)) = a :: b :: c :: cs
    rw [if_neg (by simp [h.1]), IH]

theorem dropWhile_eq_self_of_leading {p : Char → Bool} {Y X : List Char}
    (h : Y <+: X) (hX : X.dropWhile p = X) : Y.dropWhile p = Y := by
  cases Y with
  | nil => rfl
  | cons y ys =>
    obtain ⟨t, rfl⟩ := h
    rw [List.dropWhile_eq_self_iff] at hX ⊢
    intro hl
    exact hX (by simp)

theorem pyStrip_dropWhile_fix (l : List Char) :
    (pyStrip l).dropWhile isPyWsChar = pyStrip l := by
  show ((l.dropWhile isPyWsChar).rdropWhile isPyWsChar).dropWhile isPyWsChar
    = (l.dropWhile isPyWsChar).rdropWhile isPyWsChar
  exact dropWhile_eq_self_of_leading ( List.rdropWhile_prefix _ _)
    (List.dropWhile_idempotent _ _)

theorem pyStrip_idem (l : List Char) : pyStrip (pyStrip l) = pyStrip l := by
  show ((pyStrip l).dropWhile isPyWsChar).rdropWhile isPyWsChar = pyStrip l
  rw [pyStrip_dropWhile_fix]
  show ((l.dropWhile isPyWsChar).rdropWhile isPyWsChar).rdropWhile isPyWsChar
    = (l.dropWhile isPyWsChar).rdropWhile isPyWsChar
  exact List.rdropWhile_idempotent _ _

theorem pyStrip_middle (l : List Char) : pyStrip l <:+: l := by
  have h1 : pyStrip l <+: l.dropWhile isPyWsChar := List.rdropWhile_prefix _ _
  have h2 : l.dropWhile isPyWsChar <:+ l := List.dropWhile_suffix _
  obtain ⟨t, ht⟩ := h1
  obtain ⟨s, hs⟩ := h2
  exact ⟨s, t, by rw [List.append_assoc, ht, hs]⟩

theorem noHWSRun_of_middle {m l : List Char} (hin : m <:+: l) (h : noHWSRun l = true) :
    noHWSRun m = true := by
  obtain ⟨s, t, hst⟩ := hin
  rw [← hst] at h
  exact noHWSRun_append_right s m (noHWSRun_append_left (s ++ m) t h)

theorem no3NL_of_middle {m l : List Char} (hin : m <:+: l) (h : no3NL l = true) :
    no3NL m = true := by
  obtain ⟨s, t, hst⟩ := hin
  rw [← hst] at h
  exact no3NL_append_right s m (no3NL_append_left (s ++ m) t h)

theorem noHWSRun_pyStrip {l : List Char} (h : noHWSRun l = true) :
    noHWSRun (pyStrip l) = true :=
  noHWSRun_of_middle (pyStrip_middle l) h

theorem no3NL_pyStrip {l : List Char} (h : no3NL l = true) :
    no3NL (pyStrip l) = true :=
  no3NL_of_middle (pyStrip_middle l) h

theorem normalizeWs_idem (t : List Char) : normalizeWs (normalizeWs t) = normalizeWs t := by
  have h1 : noHWSRun (squeezeNL (squeezeHWS t)) = true :=
    noHWSRun_squeezeNL _ (noHWSRun_squeezeHWS t)
  have h2 : no3NL (squeezeNL (squeezeHWS t)) = true := no3NL_squeezeNL _
  show pyStrip (squeezeNL (squeezeHWS (pyStrip (squeezeNL (squeezeHWS t)))))
    = pyStrip (squeezeNL (squeezeHWS t))
  rw [squeezeHWS_fix _ (noHWSRun_pyStrip h1), squeezeNL_fix _ (no3NL_pyStrip h2),
    pyStrip_idem]

theorem guardedResult_keep {b c : List Char} {g : ℚ}
    (h : ¬ ratioRemoved b.length c.length > g) : guardedResult b c g = c := by
  unfold guardedResult
  exact if_neg fun hh => h hh.2

theorem guardedResult_revert {b c : List Char} {g : ℚ} (hb : b.length ≠ 0)
    (h : ratioRemoved b.length c.length > g) : guardedResult b c g = b := by
  unfold guardedResult
  exact if_pos ⟨hb, h⟩

theorem guardedResult_emptyBase {b c : List Char} {g : ℚ} (hb : b.length = 0) :
    guardedResult b c g = c := by
  unfold guardedResult
  exact if_neg fun hh => hh.1 hb

theorem extract_text_strict (text : List Char) (g : Option ℚ) :
    extract_text text true g
      = normalizeWs (guardedResult (baselineOf text) (filteredOf text)
          (g.getD DEFAULT_REMOVAL_GUARD)) := rfl

theorem extract_text_light (text : List Char) (g : Option ℚ) :
    extract_text text false g = normalizeWs (baselineOf text) := rfl

theorem splitNL_ne_nil : ∀ (t : List Char), splitNL t ≠ []
  | [], h => by simp [splitNL] at h
  | c :: cs, h => by
    by_cases hc : (c == '\n') = true
    · rw [show splitNL (c :: cs) = [] :: splitNL cs by simp [splitNL, hc]] at h
      exact List.cons_ne_nil _ _ h
    · have := splitNL_ne_nil cs
      rw [show splitNL (c :: cs) = (match splitNL cs with
          | [] => [[c]]
          | l :: ls => (c :: l) :: ls) by simp [splitNL, hc]] at h
      rcases he : splitNL cs with _ | ⟨m, ms⟩
      · exact this he
      · rw [he] at h
        exact List.cons_ne_nil _ _ h

theorem splitNL_no_newline : ∀ (t : List Char) (l : List Char),
    l ∈ splitNL t → '\n' ∉ l
  | [], l, hl => by
    simp only [splitNL, List.mem_singleton] at hl
    subst hl
    simp
  | c :: cs, l, hl => by
    by_cases hc : (c == '\n') = true
    · rw [show splitNL (c :: cs) = [] :: splitNL cs by simp [splitNL, hc]] at hl
      rcases List.mem_cons.mp hl with h1 | h1
      · subst h1
        simp
      · exact splitNL_no_newline cs l h1
    · rcases he : splitNL cs with _ | ⟨m, ms⟩
      · exact absurd he (splitNL_ne_nil cs)
      · rw [show splitNL (c :: cs) = (c :: m) :: ms by
          rw [show splitNL (c :: cs) = (match splitNL cs with
            | [] => [[c]]
            | l :: ls => (c :: l) :: ls) by simp [splitNL, hc], he]] at hl
        rcases List.mem_cons.mp hl with h1 | h1
        · subst h1
          intro hmem
          rcases List.mem_cons.mp hmem with h2 | h2
          · exact absurd (beq_iff_eq.mpr h2.symm) (by simpa using hc)
          · exact splitNL_no_newline cs m (by rw [he]; exact List.mem_cons_self m ms) h2
        · exact splitNL_no_newline cs l (by rw [he]; exact List.mem_cons_of_mem m h1)

theorem splitNL_of_no_newline : ∀ (l : List Char), '\n' ∉ l → splitNL l = [l]
  | [], _ => rfl
  | c :: cs, h => by
    have hc : ¬ (c == '\n') = true := by
      simp only [beq_iff_eq]
      intro hcc
      exact h (by rw [hcc]; exact List.mem_cons_self _ _)
    have IH := splitNL_of_no_newline cs fun hm => h (List.mem_cons_of_mem c hm)
    rw [show splitNL (c :: cs) = (match splitNL cs with
      | [] => [[c]]
      | l :: ls => (c :: l) :: ls) by simp [splitNL, hc], IH]

theorem splitNL_append_newline : ∀ (l rest : List Char), '\n' ∉ l →
    splitNL (l ++ '\n' :: rest) = l :: splitNL rest
  | [], rest, _ => by simp [splitNL]
  | c :: cs, rest, h => by
    have hc : ¬ (c == '\n') = true := by
      simp only [beq_iff_eq]
      intro hcc
      exact h (by rw [hcc]; exact List.mem_cons_self _ _)
    have IH := splitNL_append_newline cs rest fun hm => h (List.mem_cons_of_mem c hm)
    rw [List.cons_append]
    rw [show splitNL (c :: (cs ++ '\n' :: rest)) = (match splitNL (cs ++ '\n' :: rest) with
      | [] => [[c]]
      | l :: ls => (c :: l) :: ls) by simp [splitNL, hc], IH]

theorem splitNL_joinNL : ∀ (ls : List (List Char)), ls ≠ [] →
    (∀ l ∈ ls, '\n' ∉ l) → splitNL (joinNL ls) = ls
  | [], h, _ => absurd rfl h
  | [l], _, hnl => by
    rw [show joinNL [l] = l from rfl]
    exact splitNL_of_no_newline l (hnl l (List.mem_cons_self _ _))
  | l :: l2 :: ls, _, hnl => by
    rw [show joinNL (l :: l2 :: ls) = l ++ '\n' :: joinNL (l2 :: ls) from rfl]
    rw [splitNL_append_newline l (joinNL (l2 :: ls)) (hnl l (List.mem_cons_self _ _))]
    rw [splitNL_joinNL (l2 :: ls) (List.cons_ne_nil _ _)
      fun m hm => hnl m (List.mem_cons_of_mem l hm)]

/-- C9: the final whitespace normalization of `extract_text` (collapse runs of
horizontal whitespace to a single space, collapse three or more consecutive
newlines to exactly two, trim leading and trailing whitespace) is idempotent:
applying it to its own output returns that output unchanged. -/
theorem c9_normalization_idempotent :
    ∀ s : List Char, normalizeWs (normalizeWs s) = normalizeWs s :=
  normalizeWs_idem

theorem keptLines_sublist (ls : List (List Char)) : List.Sublist (keptLines ls) ls :=
  List.filter_sublist ls

theorem keptLines_subset {l : List Char} {ls : List (List Char)}
    (h : l ∈ keptLines ls) : l ∈ ls :=
  (keptLines_sublist ls).subset h

theorem keep_pred_iff (x : List Char) :
    ((if line_is_narrative x then true else !line_is_garbage x) = true)
      ↔ (line_is_narrative x = true ∨ line_is_garbage x = false) := by
  cases h1 : line_is_narrative x <;> cases h2 : line_is_garbage x <;> simp [h1, h2]

/-- C2: in the strict-mode filtering loop, a line of the baseline is kept if
and only if it is classified narrative or it is not classified garbage:
garbage classification is the only basis for removal, narrative classification
overrides a simultaneous garbage classification, and lines with both
predicates false are kept. -/
theorem c2_keep_iff_narrative_or_not_garbage :
    ∀ (ls : List (List Char)) (ln : List Char),
      (keptLines ls = ls.filter fun l => line_is_narrative l || !line_is_garbage l)
      ∧ (ln ∈ keptLines ls
          ↔ ln ∈ ls ∧ (line_is_narrative ln = true ∨ line_is_garbage ln = false)) := by
  intro ls ln
  constructor
  · unfold keptLines
    apply List.filter_congr
    intro x _
    cases h1 : line_is_narrative x <;> cases h2 : line_is_garbage x <;> simp [h1, h2]
  · unfold keptLines
    rw [List.mem_filter]
    exact and_congr_right fun _ => keep_pred_iff ln

/-- C6: light-mode extraction ignores the guard argument entirely (the
returned text is the same for any two guard values), and equals the
boilerplate-stripped, structural-artifact-filtered text after final
normalization, with no line classification involved. -/
theorem c6_light_mode_guard_independent :
    ∀ (text : List Char) (g1 g2 : Option ℚ),
      extract_text text false g1 = extract_text text false g2
      ∧ extract_text text false g1
          = normalizeWs (remove_line_artifacts (remove_boilerplate text)) :=
  fun _ _ _ => ⟨rfl, rfl⟩

/-- C7: the guard decision is monotone in the threshold, both at the level of
the decision function and of whole strict-mode extractions: if extraction
with guard `g` keeps the filtered text, so does extraction with any
`g2 ≥ g`. -/
theorem c7_guard_monotone :
    (∀ (b c : List Char) (g g2 : ℚ), g ≤ g2 →
      guardedResult b c g = c → guardedResult b c g2 = c)
    ∧ ∀ (text : List Char) (g g2 : ℚ), g ≤ g2 →
      extract_text text true (some g) = normalizeWs (filteredOf text) →
      extract_text text true (some g2) = normalizeWs (filteredOf text) := by
  constructor
  · intro b c g g2 hle h
    by_cases hcond : b.length ≠ 0 ∧ ratioRemoved b.length c.length > g2
    · have hg : ratioRemoved b.length c.length > g := lt_of_le_of_lt hle hcond.2
      have hbc : b = c := (guardedResult_revert hcond.1 hg).symm.trans h
      rw [guardedResult_revert hcond.1 hcond.2, hbc]
    · unfold guardedResult
      exact if_neg hcond
  · intro text g g2 hle h
    rw [extract_text_strict, Option.getD_some] at h ⊢
    by_cases hcond : (baselineOf text).length ≠ 0
      ∧ ratioRemoved (baselineOf text).length (filteredOf text).length > g2
    · have hg : ratioRemoved (baselineOf text).length (filteredOf text).length > g :=
        lt_of_le_of_lt hle hcond.2
      rw [guardedResult_revert hcond.1 hg] at h
      rw [guardedResult_revert hcond.1 hcond.2]
      exact h
    · rw [show guardedResult (baselineOf text) (filteredOf text) g2 = filteredOf text by
        unfold guardedResult; exact if_neg hcond]

/-- Witness for C7 at a concrete input: with baseline and filtered text both
`"z"` the ratio is `0`, kept at guard `0`, hence kept at guard `1`. -/
theorem c7_guard_monotone_witness : guardedResult ['z'] ['z'] 1 = ['z'] :=
  c7_guard_monotone.1 ['z'] ['z'] 0 1 (by norm_num)
    (guardedResult_keep (by norm_num [ratioRemoved]))

/-- C1: in strict mode with a nonempty baseline the removal ratio is
`1 - len(filtered)/len(baseline)`; if it strictly exceeds the guard the
baseline is returned (normalized), otherwise the filtered text is; with a
zero-length baseline no fallback decision is made and the filtered result
passes through; and at baseline length 1000, filtered length 550, guard 0.4,
the ratio is 0.45 > 0.4 and the decision is the baseline. -/
theorem c1_removal_guard_decision :
    (∀ (text : List Char) (g : ℚ), (baselineOf text).length ≠ 0 →
      ratioRemoved (baselineOf text).length (filteredOf text).length > g →
      extract_text text true (some g) = normalizeWs (baselineOf text))
    ∧ (∀ (text : List Char) (g : ℚ), (baselineOf text).length ≠ 0 →
      ¬ ratioRemoved (baselineOf text).length (filteredOf text).length > g →
      extract_text text true (some g) = normalizeWs (filteredOf text))
    ∧ (∀ (text : List Char) (g : ℚ), (baselineOf text).length = 0 →
      extract_text text true (some g) = normalizeWs (filteredOf text))
    ∧ (∀ b c : List Char, b.length = 1000 → c.length = 550 →
      ratioRemoved b.length c.length = 45/100 ∧ guardedResult b c (2/5) = b) := by
  refine ⟨?_, ?_, ?_, ?_⟩
  · intro text g hb h
    rw [extract_text_strict, Option.getD_some, guardedResult_revert hb h]
  · intro text g hb h
    rw [extract_text_strict, Option.getD_some, guardedResult_keep h]
  · intro text g hb
    rw [extract_text_strict, Option.getD_some, guardedResult_emptyBase hb]
  · intro b c hb hc
    constructor
    · rw [hb, hc]
      norm_num [ratioRemoved]
    · refine guardedResult_revert (by rw [hb]; norm_num) ?_
      rw [hb, hc]
      norm_num [ratioRemoved]

/-- Witness for C1: the 1000/550/0.4 scenario at concrete texts, and a kept
decision at a concrete one-character document with guard 1. -/
theorem c1_removal_guard_decision_witness :
    (guardedResult (List.replicate 1000 'z') (List.replicate 550 'z') (2/5)
      = List.replicate 1000 'z')
    ∧ extract_text ['q'] true (some 1) = normalizeWs (filteredOf ['q']) := by
  constructor
  · exact (c1_removal_guard_decision.2.2.2 (List.replicate 1000 'z')
      (List.replicate 550 'z') (by rw [List.length_replicate])
      (by rw [List.length_replicate])).2
  · apply c1_removal_guard_decision.2.1 ['q'] 1
    · decide
    · have h1 : (baselineOf ['q']).length = 1 := by decide
      have h2 : (filteredOf ['q']).length = 1 := by decide
      rw [h1, h2]
      norm_num [ratioRemoved]

/-- Counterexample to C3 as stated: for the document whose serialized text is
`"a, b, c, d, e, f\nHome |hi\nzzzzzzzzzzzzzzzzzzzzzz"`, boilerplate
replacement turns the second line into `" hi"`; strict filtering drops the
first line (garbage: 6 words, 5 commas, no verb), the guard keeps the
filtered text (ratio 17/43 < 0.4), and final normalization strips the now
leading `" hi"` to `"hi"` — a line that does not occur in the baseline, so
the returned text's lines are not a subsequence of the baseline's lines. -/
theorem c3_counterexample_returned_lines_not_sublist :
    ¬ List.Sublist
      (splitNL (extract_text "a, b, c, d, e, f\nHome |hi\nzzzzzzzzzzzzzzzzzzzzzz".data
        true none))
      (splitNL (baselineOf "a, b, c, d, e, f\nHome |hi\nzzzzzzzzzzzzzzzzzzzzzz".data)) := by
  have hB : baselineOf "a, b, c, d, e, f\nHome |hi\nzzzzzzzzzzzzzzzzzzzzzz".data
      = "a, b, c, d, e, f\n hi\nzzzzzzzzzzzzzzzzzzzzzz".data := by decide
  have hF : filteredOf "a, b, c, d, e, f\nHome |hi\nzzzzzzzzzzzzzzzzzzzzzz".data
      = " hi\nzzzzzzzzzzzzzzzzzzzzzz".data := by decide
  have hlB : (baselineOf "a, b, c, d, e, f\nHome |hi\nzzzzzzzzzzzzzzzzzzzzzz".data).length
      = 43 := by rw [hB]; decide
  have hlF : (filteredOf "a, b, c, d, e, f\nHome |hi\nzzzzzzzzzzzzzzzzzzzzzz".data).length
      = 26 := by rw [hF]; decide
  have hE : extract_text "a, b, c, d, e, f\nHome |hi\nzzzzzzzzzzzzzzzzzzzzzz".data true none
      = "hi\nzzzzzzzzzzzzzzzzzzzzzz".data := by
    rw [extract_text_strict]
    rw [show (none : Option ℚ).getD DEFAULT_REMOVAL_GUARD = 2/5 from rfl]
    rw [guardedResult_keep (by rw [hlB, hlF]; norm_num [ratioRemoved]), hF]
    decide
  intro hsub
  have h1 : "hi".data ∈ splitNL
      (extract_text "a, b, c, d, e, f\nHome |hi\nzzzzzzzzzzzzzzzzzzzzzz".data true none) := by
    rw [hE]
    decide
  have h2 := hsub.subset h1
  rw [hB] at h2
  exact absurd h2 (by decide)

/-- C3 (amended): before joining and final normalization, strict-mode
filtering keeps an order-preserving subsequence of the baseline's lines
(and when at least one line is kept, the filtered text's lines are exactly
that subsequence); the returned text is the normalization of either the
filtered text or the baseline.  The original claim fails only because the
final normalization can edit surviving lines. -/
theorem c3_amended_prenormalization_sublist :
    ∀ (text : List Char) (g : Option ℚ),
      List.Sublist (keptLines (splitNL (baselineOf text))) (splitNL (baselineOf text))
      ∧ filteredOf text = joinNL (keptLines (splitNL (baselineOf text)))
      ∧ (keptLines (splitNL (baselineOf text)) ≠ [] →
          splitNL (filteredOf text) = keptLines (splitNL (baselineOf text)))
      ∧ (extract_text text true g = normalizeWs (filteredOf text)
          ∨ extract_text text true g = normalizeWs (baselineOf text)) := by
  intro text g
  refine ⟨keptLines_sublist _, rfl, ?_, ?_⟩
  · intro hne
    exact splitNL_joinNL _ hne fun l hl =>
      splitNL_no_newline (baselineOf text) l (keptLines_subset hl)
  · rw [extract_text_strict]
    by_cases hcond : (baselineOf text).length ≠ 0
      ∧ ratioRemoved (baselineOf text).length (filteredOf text).length
          > g.getD DEFAULT_REMOVAL_GUARD
    · right
      rw [guardedResult_revert hcond.1 hcond.2]
    · left
      rw [show guardedResult (baselineOf text) (filteredOf text)
          (g.getD DEFAULT_REMOVAL_GUARD) = filteredOf text by
        unfold guardedResult; exact if_neg hcond]

/-- Witness for the amended C3 at a concrete document. -/
theorem c3_amended_prenormalization_sublist_witness :
    splitNL (filteredOf ['q']) = keptLines (splitNL (baselineOf ['q'])) :=
  (c3_amended_prenormalization_sublist ['q'] none).2.2.1 (by decide)

/-- C4: `recommend_guard_from_profile` returns the default on an empty ratio
list; on a nonempty list it returns `median + 0.10` clamped to
`[0.30, 0.60]` (hence always lies in that interval); and the profile
`[0.2, 0.3, 0.3, 0.5, 0.9]` (median `0.3`) yields `0.40`. -/
theorem c4_recommend_guard :
    (∀ d : ℚ, recommend_guard_from_profile [] d = d)
    ∧ (∀ (ratios : List ℚ) (d : ℚ), ratios ≠ [] →
        recommend_guard_from_profile ratios d
          = max (3/10) (min (6/10) (pyMedian ratios + 1/10))
        ∧ 3/10 ≤ recommend_guard_from_profile ratios d
        ∧ recommend_guard_from_profile ratios d ≤ 6/10)
    ∧ (∀ d : ℚ, recommend_guard_from_profile [2/10, 3/10, 3/10, 5/10, 9/10] d = 2/5) := by
  refine ⟨fun d => by simp [recommend_guard_from_profile], ?_, fun d => ?_⟩
  · intro ratios d hne
    have he : recommend_guard_from_profile ratios d
        = max (3/10) (min (6/10) (pyMedian ratios + 1/10)) := by
      unfold recommend_guard_from_profile
      rw [if_neg hne]
    refine ⟨he, ?_, ?_⟩
    · rw [he]
      exact le_max_left _ _
    · rw [he]
      exact max_le (by norm_num) (min_le_left _ _)
  · unfold recommend_guard_from_profile pyMedian
    rw [if_neg (by simp)]
    norm_num [List.insertionSort, List.orderedInsert, List.getD]

/-- Witness for C4 at the singleton ratio list `[1/2]`. -/
theorem c4_recommend_guard_witness :
    3/10 ≤ recommend_guard_from_profile [1/2] (2/5)
    ∧ recommend_guard_from_profile [1/2] (2/5) ≤ 6/10 :=
  ⟨(c4_recommend_guard.2.1 [1/2] (2/5) (by simp)).2.1,
    (c4_recommend_guard.2.1 [1/2] (2/5) (by simp)).2.2⟩

theorem pyStrip_eq_nil_of_all {l : List Char}
    (h : (pyStrip l).all isPyWsChar = true) : pyStrip l = [] := by
  cases hr : pyStrip l with
  | nil => rfl
  | cons x xs =>
    exfalso
    have hfix := pyStrip_dropWhile_fix l
    rw [hr] at hfix h
    have hx : isPyWsChar x = true := by
      simp only [List.all_cons, Bool.and_eq_true] at h
      exact h.1
    rw [List.dropWhile_cons, hx] at hfix
    rw [if_pos rfl] at hfix
    have hlen := (List.dropWhile_sublist (l := xs) isPyWsChar).length_le
    rw [hfix] at hlen
    simp at hlen

theorem extract_text_eq_pyStrip (text : List Char) (f : Bool) (g : Option ℚ) :
    ∃ u, extract_text text f g = pyStrip u := by
  cases f with
  | false => exact ⟨_, rfl⟩
  | true => exact ⟨_, rfl⟩

theorem extract_text_empty_of_allWs {text : List Char} {f : Bool} {g : Option ℚ}
    (h : (extract_text text f g).all isPyWsChar = true) :
    extract_text text f g = [] := by
  obtain ⟨u, hu⟩ := extract_text_eq_pyStrip text f g
  rw [hu] at h ⊢
  exact pyStrip_eq_nil_of_all h

theorem process_file_skip {c : List Char} {f : Bool} {g : Option ℚ}
    (h : extract_text c f g = []) : process_file (.ok c) f g = .ok none := by
  unfold process_file
  rw [show readFile (ReadOutcome.ok c) = Except.ok c from rfl]
  exact if_pos h

theorem process_file_stats {r : ReadOutcome} {f : Bool} {g : Option ℚ}
    {c t : ℕ} {m : Multiset (List Char)}
    (h : process_file r f g = .ok (some (c, t, m))) : t = Multiset.card m := by
  unfold process_file at h
  cases hr : readFile r with
  | error e =>
    rw [hr] at h
    exact Except.noConfusion h
  | ok html =>
    simp only [hr] at h
    by_cases hc : extract_text html f g = []
    · rw [if_pos hc] at h
      simp at h
    · rw [if_neg hc] at h
      simp only [Except.ok.injEq, Option.some.injEq, Prod.mk.injEq] at h
      rw [← h.2.1, ← h.2.2]
      simp

theorem tree_tokens_eq_card :
    ∀ (files : List ReadOutcome) (f : Bool) (g : Option ℚ) (s : TreeStats),
      process_tree files f g = Except.ok s → s.tokens = Multiset.card s.counter
  | [], f, g, s, h => by
    simp only [process_tree, Except.ok.injEq] at h
    rw [← h]
    simp
  | r :: rest, f, g, s, h => by
    unfold process_tree at h
    cases hr : readFile r with
    | error e =>
      simp only [hr] at h
      exact Except.noConfusion h
    | ok html =>
      simp only [hr] at h
      cases hp : process_file r f g with
      | error e =>
        simp only [hp] at h
        exact Except.noConfusion h
      | ok res =>
        simp only [hp] at h
        cases ht : process_tree rest f g with
        | error e =>
          simp only [ht] at h
          rcases res with _ | ⟨cc, tt, m⟩ <;> simp [Except.map] at h
        | ok s2 =>
          simp only [ht] at h
          have IH := tree_tokens_eq_card rest f g s2 ht
          rcases res with _ | ⟨cc, tt, m⟩
          · simp only [Except.map, Except.ok.injEq] at h
            rw [← h]
            exact IH
          · have hstat := process_file_stats hp
            simp only [Except.map, Except.ok.injEq] at h
            rw [← h]
            simp only [Multiset.card_add, hstat, IH]
            omega

theorem process_tree_cons_eq (r : ReadOutcome) (rest : List ReadOutcome)
    (f : Bool) (g : Option ℚ) :
    process_tree (r :: rest) f g
      = match readFile r with
        | .error e => .error e
        | .ok html =>
          match process_file r f g with
          | .error e => .error e
          | .ok none =>
            (process_tree rest f g).map fun s =>
              ⟨s.files, s.chars, s.tokens, s.counter, ratioEntries html f g ++ s.ratios⟩
          | .ok (some (c, t, m)) =>
            (process_tree rest f g).map fun s =>
              ⟨s.files + 1, s.chars + c, s.tokens + t, m + s.counter,
                ratioEntries html f g ++ s.ratios⟩ := rfl

/-- C10: after every run of `process_tree`, the returned total token count
equals the number of tokens in the returned token-frequency counter (the sum
of all its multiplicities): the per-file counter is built over exactly the
file's own token list, so the aggregate total and frequency map never
diverge. -/
theorem c10_total_tokens_eq_counter_card :
    ∀ (files : List ReadOutcome) (f : Bool) (g : Option ℚ) (s : TreeStats),
      process_tree files f g = Except.ok s → s.tokens = Multiset.card s.counter :=
  tree_tokens_eq_card

theorem extract_z_light : extract_text ['z'] false none = ['z'] := by decide

theorem ratioEntries_z : ratioEntries ['z'] false none = [0] := by
  unfold ratioEntries
  rw [extract_z_light]
  rw [if_pos (by norm_num)]
  have hrr : ratioRemoved (List.length ['z']) (List.length ['z']) = 0 := by
    norm_num [ratioRemoved]
  rw [hrr, min_eq_right (by norm_num : (0:ℚ) ≤ 1), max_self]

theorem process_file_z :
    process_file (.ok ['z']) false none
      = Except.ok (some (1, 1, (↑[['z']] : Multiset (List Char)))) := by
  unfold process_file
  simp only [show readFile (ReadOutcome.ok ['z']) = Except.ok ['z'] from rfl]
  rw [if_neg (by rw [extract_z_light]; simp), extract_z_light]
  simp only [Except.ok.injEq, Option.some.injEq, Prod.mk.injEq]
  exact ⟨by decide, by decide, by decide⟩

theorem process_tree_single_z :
    process_tree [ReadOutcome.ok ['z']] false none
      = Except.ok ⟨1, 1, 1, (↑[['z']] : Multiset (List Char)), [0]⟩ := by
  rw [process_tree_cons_eq]
  simp only [show readFile (ReadOutcome.ok ['z']) = Except.ok ['z'] from rfl,
    process_file_z, ratioEntries_z]
  rw [show process_tree [] false none = Except.ok ⟨0, 0, 0, 0, []⟩ from rfl]
  simp [Except.map]

/-- Witness for C10 on a one-file tree: the stats are `(1, 1, 1, {"z"}, [0])`
and indeed `1` token equals the counter's total multiplicity. -/
theorem c10_total_tokens_eq_counter_card_witness :
    (⟨1, 1, 1, (↑[['z']] : Multiset (List Char)), [0]⟩ : TreeStats).tokens
      = Multiset.card
        (⟨1, 1, 1, (↑[['z']] : Multiset (List Char)), [0]⟩ : TreeStats).counter :=
  c10_total_tokens_eq_counter_card [ReadOutcome.ok ['z']] false none
    ⟨1, 1, 1, (↑[['z']] : Multiset (List Char)), [0]⟩ process_tree_single_z

/-- C8: a file whose cleaned extraction is empty or whitespace-only is a soft
skip: `process_file` returns no statistics (and hence writes nothing), and
`process_tree` leaves the file/character/token aggregates and the counter
untouched while continuing with the remaining files and raising nothing
(the ratio list is the only component it can still contribute to). -/
theorem c8_empty_output_soft_skip :
    ∀ (c : List Char) (f : Bool) (g : Option ℚ),
      (extract_text c f g).all isPyWsChar = true →
      process_file (.ok c) f g = .ok none
      ∧ ∀ rest : List ReadOutcome, process_tree (.ok c :: rest) f g
          = (process_tree rest f g).map fun s =>
              ⟨s.files, s.chars, s.tokens, s.counter, ratioEntries c f g ++ s.ratios⟩ := by
  intro c f g hws
  have h0 : extract_text c f g = [] := extract_text_empty_of_allWs hws
  have hp : process_file (.ok c) f g = .ok none := process_file_skip h0
  refine ⟨hp, fun rest => ?_⟩
  rw [process_tree_cons_eq]
  simp only [show readFile (ReadOutcome.ok c) = Except.ok c from rfl, hp]

/-- Witness for C8 at the empty document (strict mode): extraction is empty,
the file is skipped, and a one-file tree returns all-zero aggregates. -/
theorem c8_empty_output_soft_skip_witness :
    process_file (.ok []) true none = Except.ok none
    ∧ process_tree [ReadOutcome.ok []] true none = Except.ok ⟨0, 0, 0, 0, []⟩ := by
  have h := c8_empty_output_soft_skip [] true none (by decide)
  refine ⟨h.1, ?_⟩
  rw [h.2 []]
  rw [show process_tree [] true none = Except.ok ⟨0, 0, 0, 0, []⟩ from rfl]
  have hre : ratioEntries [] true none = [] := by
    unfold ratioEntries
    rw [show extract_text [] false none = [] from by decide]
    simp
  simp [Except.map, hre]

/-- C5 (amended): only the initial per-file read is protected.  A file whose
UTF-8 read fails but whose Latin-1 fallback read succeeds is processed
exactly like an ordinarily readable file, without raising; but if the
fallback read itself fails, the exception propagates out of the loop and
`process_tree` aborts, producing no statistics for any remaining file.
(With `errors="ignore"` on both reads, decode errors proper never raise;
the caught failures are I/O errors such as a failing open.) -/
theorem c5_amended_read_fallback_only :
    (∀ (c : List Char) (rest : List ReadOutcome) (f : Bool) (g : Option ℚ),
      process_tree (.utf8Fails c :: rest) f g = process_tree (.ok c :: rest) f g)
    ∧ (∀ (rest : List ReadOutcome) (f : Bool) (g : Option ℚ),
      process_tree (.bothFail :: rest) f g = .error ()) := by
  constructor
  · intro c rest f g
    rfl
  · intro rest f g
    rfl

/-- Counterexample to C5 as stated: in a two-file tree whose first file fails
both reads, the walk aborts with the exception and returns no statistics at
all, although processing the second file alone would produce statistics —
so a per-file I/O failure does abort the remainder of the tree. -/
theorem c5_counterexample_read_failure_aborts_tree :
    process_tree [ReadOutcome.bothFail, ReadOutcome.ok ['z']] false none = Except.error ()
    ∧ process_tree [ReadOutcome.ok ['z']] false none
        = Except.ok ⟨1, 1, 1, (↑[['z']] : Multiset (List Char)), [0]⟩ :=
  ⟨rfl, process_tree_single_z⟩
